import Mathlib

/-!
Shallow embedding of the cycle async runtime core, translated from the
repository sources src/task.rs, src/scheduler.rs, src/runtime.rs,
src/reactor.rs and src/time.rs.  Machine instants and durations are
modelled as natural numbers, lock contention as an oracle telling which
try_lock calls fail, and the opaque task closures and wakers as values of
abstract types or naturals.
-/

namespace Cycle

/-!
### Task control, src/task.rs

A live TaskControl of payload type T carries the mutex-guarded field
result, holding an optional value of type Result of T and JoinError, and
the atomic flag completed.  The payload of the result field is kept as an
abstract type below.
-/

/-- Model of the Rust type Result of T and JoinError used in src/task.rs,
with the JoinError message as a string. -/
inductive RResult (τ : Type) where
  | ok : τ → RResult τ
  | err : String → RResult τ
  deriving DecidableEq, Repr

/-- State of one TaskControl, src/task.rs lines 14 to 17: the guarded
result slot and the completed flag. -/
structure TCState (α : Type) where
  result : Option α
  completed : Bool
  deriving DecidableEq, Repr

/-- TaskControl.new, src/task.rs lines 60 to 65: empty slot, flag down. -/
def TCState.init (α : Type) : TCState α := ⟨none, false⟩

/-- TaskControl.complete, src/task.rs lines 68 to 71: store the result in
the slot, then raise the completed flag. -/
def TCState.complete (_s : TCState α) (r : α) : TCState α := ⟨some r, true⟩

/-- JoinHandle.try_result, src/task.rs lines 32 to 38: when the completed
flag is up, take the slot contents out of the mutex; otherwise answer
none.  The pair holds the observed value and the state after the call. -/
def TCState.tryResult (s : TCState α) : Option α × TCState α :=
  if s.completed then (s.result, ⟨none, s.completed⟩) else (none, s)

/-- JoinHandle.is_finished, src/task.rs lines 41 to 43. -/
def TCState.isFinished (s : TCState α) : Bool := s.completed

/-- Operations a client may perform on a TaskControl: the executing task
completes it, the JoinHandle holder reads it. -/
inductive TCOp (α : Type) where
  | complete : α → TCOp α
  | tryResult
  deriving DecidableEq, Repr

/-- State transition of one operation. -/
def TCState.step (s : TCState α) : TCOp α → TCState α
  | .complete r => s.complete r
  | .tryResult => (s.tryResult).2

/-- Run a sequence of operations from a state. -/
def TCState.run (s : TCState α) (ops : List (TCOp α)) : TCState α :=
  ops.foldl TCState.step s

theorem TCState.step_completed_mono (s : TCState α) (op : TCOp α)
    (h : s.completed = true) : (s.step op).completed = true := by
  cases op with
  | complete r => rfl
  | tryResult =>
    simp only [TCState.step, TCState.tryResult]
    split <;> simp [h]

theorem TCState.run_completed_mono (ops : List (TCOp α)) (s : TCState α)
    (h : s.completed = true) : (s.run ops).completed = true := by
  induction ops generalizing s with
  | nil => exact h
  | cons op ops ih => exact ih _ (s.step_completed_mono op h)

/-- Before completion the slot is empty: preserved by every step. -/
theorem TCState.step_empty_inv (s : TCState α) (op : TCOp α)
    (h : s.completed = false → s.result = none) :
    (s.step op).completed = false → (s.step op).result = none := by
  cases op with
  | complete r => intro hc; cases hc
  | tryResult =>
    simp only [TCState.step, TCState.tryResult]
    split <;> simp_all

theorem TCState.run_empty_inv (ops : List (TCOp α)) (s : TCState α)
    (h : s.completed = false → s.result = none) :
    (s.run ops).completed = false → (s.run ops).result = none := by
  induction ops generalizing s with
  | nil => exact h
  | cons op ops ih => exact ih _ (s.step_empty_inv op h)

/-- Any value found in the slot was put there by some complete call. -/
theorem TCState.run_result_origin (ops : List (TCOp α)) (s : TCState α)
    (r : α) (h : (s.run ops).result = some r) :
    TCOp.complete r ∈ ops ∨ s.result = some r := by
  induction ops generalizing s with
  | nil => exact Or.inr h
  | cons op ops ih =>
    rcases ih (s.step op) h with h1 | h2
    · exact Or.inl (List.mem_cons_of_mem _ h1)
    · cases op with
      | complete r' =>
        simp only [TCState.step, TCState.complete] at h2
        rcases Option.some_inj.mp h2 with rfl
        exact Or.inl (List.mem_cons_self _ _)
      | tryResult =>
        simp only [TCState.step, TCState.tryResult] at h2
        split at h2
        · cases h2
        · exact Or.inr h2

/-- Whether an operation is a complete call. -/
def isCompleteOp : TCOp α → Bool
  | .complete _ => true
  | .tryResult => false

/-- Number of complete calls in an operation sequence.  In the program
every TaskControl receives at most one: the only call site of complete is
inside the task closure built by Runtime.spawn, src/runtime.rs line 151,
and that FnOnce closure is executed at most once by whichever worker
dequeues it. -/
def countCompletes (ops : List (TCOp α)) : Nat := ops.countP isCompleteOp

/-- Number of assignments of a some value to the result slot one
operation performs: complete performs exactly the one assignment at
src/task.rs line 69, while try_result only ever assigns none through its
take. -/
def opOutcomeWrites : TCOp α → Nat
  | .complete _ => 1
  | .tryResult => 0

/-- Total outcome writes performed by an operation sequence. -/
def outcomeWrites (ops : List (TCOp α)) : Nat :=
  (ops.map opOutcomeWrites).sum

theorem outcomeWrites_eq_countCompletes (ops : List (TCOp α)) :
    outcomeWrites ops = countCompletes ops := by
  induction ops with
  | nil => rfl
  | cons op ops ih =>
    have h1 : outcomeWrites (op :: ops) =
        opOutcomeWrites op + outcomeWrites ops := by
      simp [outcomeWrites, List.map_cons, List.sum_cons]
    have h2 : countCompletes (op :: ops) =
        countCompletes ops + if isCompleteOp op then 1 else 0 := by
      simp [countCompletes, List.countP_cons]
    rw [h1, h2, ih]
    cases op <;> (simp [opOutcomeWrites, isCompleteOp]; try omega)

/-- With at most one complete in the sequence, any two complete calls in
it carry the same value. -/
theorem complete_unique (ops : List (TCOp α)) (r r' : α)
    (h1 : countCompletes ops ≤ 1) (h2 : TCOp.complete r ∈ ops)
    (h3 : TCOp.complete r' ∈ ops) : r = r' := by
  induction ops with
  | nil => cases h2
  | cons op ops ih =>
    cases op with
    | complete s =>
      have hnone : ∀ x : α, TCOp.complete x ∉ ops := by
        intro x hx
        have hc : countCompletes (TCOp.complete s :: ops) =
            countCompletes ops + 1 := by
          simp [countCompletes, List.countP_cons, isCompleteOp]
        have hpos : 0 < countCompletes ops := by
          have hp : 0 < List.countP isCompleteOp ops :=
            List.countP_pos_iff.mpr ⟨_, hx, rfl⟩
          simpa [countCompletes] using hp
        omega
      rcases List.mem_cons.mp h2 with he | he
      · rcases List.mem_cons.mp h3 with he' | he'
        · simp only [TCOp.complete.injEq] at he he'
          rw [he, he']
        · exact absurd he' (hnone r')
      · exact absurd he (hnone r)
    | tryResult =>
      have h1' : countCompletes ops ≤ 1 := by
        simp [countCompletes, List.countP_cons, isCompleteOp] at h1
        simpa [countCompletes] using h1
      rcases List.mem_cons.mp h2 with he | he
      · simp at he
      · rcases List.mem_cons.mp h3 with he' | he'
        · simp at he'
        · exact ih h1' he he'

/-- C4 counterexample: the claim asserts that any observer that sees the
completed flag true can read the complete outcome.  On the code this fails
after the single consuming read: complete the control with the value 7,
consume it once with try_result, and in the resulting state the flag is
still observed true yet try_result reads none. -/
theorem taskcontrol_completed_but_unreadable :
    ((TCState.init Nat).run [TCOp.complete 7, TCOp.tryResult]).completed = true ∧
    (((TCState.init Nat).run [TCOp.complete 7, TCOp.tryResult]).tryResult).1 = none := by
  decide

/-- C4 amended: for every TaskControl, under the runtime's usage in which
complete is invoked at most once per control because its only call site is
the once-executed task closure of Runtime.spawn, the outcome is written at
most once, and the single complete determines any value ever read from the
slot; over every operation sequence the completed flag never reverts to
false once raised, and while the flag is down the result slot is empty, so
no observer reads an outcome before it is fully written; immediately after
complete with value r a try_result reads exactly r.  However try_result
consumes the outcome: after the single consuming read the flag stays true
while the slot reads none. -/
theorem taskcontrol_write_once_invariants (α : Type)
    (ops tail : List (TCOp α)) (s : TCState α) (r r' : α) :
    (countCompletes ops ≤ 1 → outcomeWrites ops ≤ 1) ∧
    (countCompletes ops ≤ 1 → TCOp.complete r ∈ ops →
      ((TCState.init α).run ops).result = some r' → r' = r) ∧
    (((TCState.init α).run ops).completed = true →
      ((TCState.init α).run (ops ++ tail)).completed = true) ∧
    (((TCState.init α).run ops).completed = false →
      ((TCState.init α).run ops).result = none) ∧
    (((s.complete r).tryResult).1 = some r) ∧
    (((TCState.init α).run ops).result = some r' → TCOp.complete r' ∈ ops) := by
  refine ⟨?_, ?_, ?_, ?_, ?_, ?_⟩
  · intro h
    rw [outcomeWrites_eq_countCompletes]
    exact h
  · intro h1 h2 h3
    have hmem : TCOp.complete r' ∈ ops := by
      rcases TCState.run_result_origin ops _ r' h3 with ho | ho
      · exact ho
      · cases ho
    exact complete_unique ops r' r h1 hmem h2
  · intro h
    have : (TCState.init α).run (ops ++ tail) =
        ((TCState.init α).run ops).run tail := by
      simp [TCState.run, List.foldl_append]
    rw [this]
    exact TCState.run_completed_mono tail _ h
  · exact TCState.run_empty_inv ops _ (by intro _; rfl)
  · rfl
  · intro h
    rcases TCState.run_result_origin ops _ r' h with h1 | h2
    · exact h1
    · cases h2

/-- Witness for the C4 amended theorem at concrete inputs. -/
theorem taskcontrol_write_once_invariants_w :
    outcomeWrites [TCOp.complete (3 : Nat)] ≤ 1 ∧
    (3 : Nat) = 3 ∧
    ((TCState.init Nat).run ([TCOp.complete 3] ++ [TCOp.tryResult])).completed = true ∧
    (((TCState.init Nat).complete 5).tryResult).1 = some 5 ∧
    TCOp.complete 3 ∈ [TCOp.complete 3] := by
  refine ⟨?_, ?_, ?_, ?_, ?_⟩
  · exact (taskcontrol_write_once_invariants Nat [TCOp.complete 3] []
      (TCState.init Nat) 5 3).1 (by decide)
  · exact (taskcontrol_write_once_invariants Nat [TCOp.complete 3] []
      (TCState.init Nat) 3 3).2.1 (by decide) (by decide) (by decide)
  · exact (taskcontrol_write_once_invariants Nat [TCOp.complete 3] [TCOp.tryResult]
      (TCState.init Nat) 5 3).2.2.1 (by decide)
  · exact (taskcontrol_write_once_invariants Nat [TCOp.complete 3] []
      (TCState.init Nat) 5 3).2.2.2.2.1
  · exact (taskcontrol_write_once_invariants Nat [TCOp.complete 3] []
      (TCState.init Nat) 5 3).2.2.2.2.2 (by decide)

/-- C5: try_result is non-blocking and reads none whenever the control is
not yet completed, leaving the state unchanged; after completion with
outcome r the first call reads some r and consumes it, every later call
reads none, and is_finished still reports true. -/
theorem joinhandle_tryresult_single_consumer (α : Type) (s : TCState α) (r : α)
    (h : s.completed = false) :
    (s.tryResult).1 = none ∧ (s.tryResult).2 = s ∧
    (((s.complete r).tryResult).1 = some r) ∧
    ((((s.complete r).tryResult).2).tryResult).1 = none ∧
    (((s.complete r).tryResult).2).isFinished = true := by
  refine ⟨?_, ?_, rfl, rfl, rfl⟩
  · simp [TCState.tryResult, h]
  · simp [TCState.tryResult, h]

/-- Witness for C5 at concrete inputs. -/
theorem joinhandle_tryresult_single_consumer_w :
    ((TCState.init Nat).tryResult).1 = none ∧
    ((TCState.init Nat).tryResult).2 = TCState.init Nat ∧
    ((((TCState.init Nat).complete 4).tryResult).1 = some 4) ∧
    (((((TCState.init Nat).complete 4).tryResult).2).tryResult).1 = none ∧
    ((((TCState.init Nat).complete 4).tryResult).2).isFinished = true :=
  joinhandle_tryresult_single_consumer Nat (TCState.init Nat) 4 rfl

/-!
### Spawn and the worker loop, src/runtime.rs

Runtime.spawn, lines 133 to 159, wraps the future in a closure that runs
it to completion with a nested blocking executor and then calls complete
with the ok outcome.  The closure installs no unwind guard, so a panic
raised by the future escapes the closure before complete is reached.
Runtime.worker_main, lines 105 to 130, invokes the dequeued closure
directly, also with no unwind guard, so an escaping panic unwinds the
worker thread.
-/

/-- Result of executing a spawned future to completion: a value, or an
abnormal termination by panic. -/
inductive ExecResult (τ : Type) where
  | ok : τ → ExecResult τ
  | panicked
  deriving DecidableEq, Repr

/-- The task closure built by Runtime.spawn, src/runtime.rs lines 148 to
155: run the future, then call complete with the ok value.  There is no
catch_unwind, so on a panic the closure is abandoned before complete and
the panic escapes to the caller.  The pair holds the control state after
the closure and whether a panic escaped. -/
def runSpawnedTask (fr : ExecResult τ) (ctl : TCState (RResult τ)) :
    TCState (RResult τ) × Bool :=
  match fr with
  | .ok v => (ctl.complete (RResult.ok v), false)
  | .panicked => (ctl, true)

/-- Runtime.worker_main, src/runtime.rs lines 105 to 130, calls the
dequeued task closure with no unwind guard: the worker thread survives the
task exactly when no panic escapes the closure. -/
def workerSurvives (fr : ExecResult τ) (ctl : TCState (RResult τ)) : Bool :=
  !(runSpawnedTask fr ctl).2

/-- C1, evaluated at the failing input: a spawned future that panics.  The
panic escapes the task closure, the worker thread does not survive, the
control is never completed, so try_result on the JoinHandle reads none
forever and no TaskFailure outcome is ever surfaced; by contrast a
normally returning future completes the control with its ok value. -/
theorem spawn_panic_not_captured :
    (runSpawnedTask (ExecResult.panicked : ExecResult Nat)
      (TCState.init (RResult Nat))).2 = true ∧
    workerSurvives (ExecResult.panicked : ExecResult Nat)
      (TCState.init (RResult Nat)) = false ∧
    ((runSpawnedTask (ExecResult.panicked : ExecResult Nat)
      (TCState.init (RResult Nat))).1).completed = false ∧
    (((runSpawnedTask (ExecResult.panicked : ExecResult Nat)
      (TCState.init (RResult Nat))).1).tryResult).1 = none ∧
    (runSpawnedTask (ExecResult.ok (5 : Nat))
      (TCState.init (RResult Nat))).1 =
      (TCState.init (RResult Nat)).complete (RResult.ok 5) := by
  refine ⟨rfl, rfl, rfl, rfl, rfl⟩

/-!
### Scheduler, src/scheduler.rs

The scheduler holds one global queue and one queue per worker, each a
VecDeque behind its own mutex, plus a round-robin counter.  Tasks are
opaque closures, modelled as naturals.  Lock contention is an oracle
saying which try_lock calls fail; the blocking lock in the schedule
fallback always succeeds after waiting.  Every mutex acquisition the
scheduler performs is recorded as an access, with its queue and whether it
was a try_lock attempt or an unconditional blocking acquire.
-/

/-- Identity of one scheduler queue: the shared global queue or worker
i's local queue. -/
inductive QueueId where
  | global
  | localQ (i : Nat)
  deriving DecidableEq, Repr

/-- How a lock was taken: a non-blocking try_lock attempt or an
unconditional blocking acquire. -/
inductive LockMode where
  | tryLock
  | blocking
  deriving DecidableEq, Repr

/-- One recorded lock acquisition on a scheduler queue. -/
structure Access where
  queue : QueueId
  mode : LockMode
  deriving DecidableEq, Repr

/-- Contention oracle: true means a try_lock on that queue fails now. -/
def Contention : Type := QueueId → Bool

/-- Scheduler state, src/scheduler.rs lines 11 to 23: global queue,
per-worker local queues, round-robin counter.  List front is the VecDeque
front, so push_back appends and pop_front takes the head. -/
structure SchedState where
  globalQ : List Nat
  workers : List (List Nat)
  nextWorker : Nat
  deriving DecidableEq, Repr

/-- The local queue of worker i in a scheduler state. -/
def localList (s : SchedState) (i : Nat) : List Nat := s.workers.getD i []

/-- Scheduler.schedule, src/scheduler.rs lines 42 to 52: pick a worker by
round-robin counter modulo worker count, try_lock its local queue and
push_back on success; on contention fall back to the global queue through
an unconditional blocking lock.  Returns the new state and the recorded
lock accesses in order. -/
def schedule (c : Contention) (s : SchedState) (t : Nat) :
    SchedState × List Access :=
  let wid := s.nextWorker % s.workers.length
  if c (.localQ wid) then
    (⟨s.globalQ ++ [t], s.workers, s.nextWorker + 1⟩,
      [⟨.localQ wid, .tryLock⟩, ⟨.global, .blocking⟩])
  else
    (⟨s.globalQ, s.workers.set wid (localList s wid ++ [t]),
        s.nextWorker + 1⟩,
      [⟨.localQ wid, .tryLock⟩])

/-- Scheduler.steal_work, src/scheduler.rs lines 75 to 89: scan the worker
indices in the given order, skip the requesting worker, try_lock each
other queue and pop_back from the first non-empty one successfully
locked. -/
def stealLoop (c : Contention) (s : SchedState) (wid : Nat) :
    List Nat → Option Nat × SchedState × List Access
  | [] => (none, s, [])
  | i :: rest =>
    if i = wid then stealLoop c s wid rest
    else if c (.localQ i) then
      ((stealLoop c s wid rest).1, (stealLoop c s wid rest).2.1,
        ⟨.localQ i, .tryLock⟩ :: (stealLoop c s wid rest).2.2)
    else
      match (localList s i).getLast? with
      | some t =>
        (some t,
          ⟨s.globalQ, s.workers.set i ((localList s i).dropLast), s.nextWorker⟩,
          [⟨.localQ i, .tryLock⟩])
      | none =>
        ((stealLoop c s wid rest).1, (stealLoop c s wid rest).2.1,
          ⟨.localQ i, .tryLock⟩ :: (stealLoop c s wid rest).2.2)

/-- Steps 2 and 3 of Scheduler.find_work, src/scheduler.rs lines 63 to 71:
try_lock the global queue and pop from its front; when that yields
nothing, steal from the other workers in the fixed order 0, 1, and so on
up to the worker count. -/
def findWorkGlobal (c : Contention) (s : SchedState) (wid : Nat) :
    Option Nat × SchedState × List Access :=
  if c .global then
    ((stealLoop c s wid (List.range s.workers.length)).1,
      (stealLoop c s wid (List.range s.workers.length)).2.1,
      ⟨.global, .tryLock⟩ :: (stealLoop c s wid (List.range s.workers.length)).2.2)
  else
    match s.globalQ with
    | t :: rest =>
      (some t, ⟨rest, s.workers, s.nextWorker⟩, [⟨QueueId.global, .tryLock⟩])
    | [] =>
      ((stealLoop c s wid (List.range s.workers.length)).1,
        (stealLoop c s wid (List.range s.workers.length)).2.1,
        ⟨.global, .tryLock⟩ :: (stealLoop c s wid (List.range s.workers.length)).2.2)

/-- Scheduler.find_work, src/scheduler.rs lines 55 to 72: try_lock the
worker's own local queue and pop from its front; when that yields nothing,
continue with the global queue and then stealing. -/
def findWork (c : Contention) (s : SchedState) (wid : Nat) :
    Option Nat × SchedState × List Access :=
  if c (.localQ wid) then
    ((findWorkGlobal c s wid).1, (findWorkGlobal c s wid).2.1,
      ⟨.localQ wid, .tryLock⟩ :: (findWorkGlobal c s wid).2.2)
  else
    match localList s wid with
    | t :: rest =>
      (some t, ⟨s.globalQ, s.workers.set wid rest, s.nextWorker⟩,
        [⟨.localQ wid, .tryLock⟩])
    | [] =>
      ((findWorkGlobal c s wid).1, (findWorkGlobal c s wid).2.1,
        ⟨.localQ wid, .tryLock⟩ :: (findWorkGlobal c s wid).2.2)

/-- The list held by a queue identity in a scheduler state. -/
def queueOf (s : SchedState) : QueueId → List Nat
  | .global => s.globalQ
  | .localQ i => localList s i

/-- A queue yields a task now when its try_lock succeeds and it is
non-empty. -/
def availQ (c : Contention) (s : SchedState) (q : QueueId) : Bool :=
  !(c q) && !(queueOf s q).isEmpty

/-- The candidate order of claim C2, written from the claim's words: first
the head of the worker's own local queue, then the head of the global
queue, then the tail of the first available other local queue in the fixed
scan order over worker indices. -/
def findWorkSpec (c : Contention) (s : SchedState) (wid : Nat) : Option Nat :=
  if availQ c s (.localQ wid) then (localList s wid).head?
  else if availQ c s .global then s.globalQ.head?
  else
    (((List.range s.workers.length).filter (fun i => i != wid)).find?
      (fun i => availQ c s (.localQ i))).bind
      fun i => (localList s i).getLast?

theorem localList_empty_avail (c : Contention) (s : SchedState) (i : Nat)
    (h : localList s i = []) : availQ c s (.localQ i) = false := by
  simp only [availQ, queueOf, h]
  simp

theorem localList_cons_avail (c : Contention) (s : SchedState) (i : Nat)
    (hc : c (.localQ i) = false) (x : Nat) (xs : List Nat)
    (h : localList s i = x :: xs) : availQ c s (.localQ i) = true := by
  simp only [availQ, queueOf, h, hc]
  simp

theorem stealLoop_fst (c : Contention) (s : SchedState) (wid : Nat)
    (l : List Nat) :
    (stealLoop c s wid l).1 =
      ((l.filter (fun i => i != wid)).find?
        (fun i => availQ c s (.localQ i))).bind
        (fun i => (localList s i).getLast?) := by
  induction l with
  | nil => rfl
  | cons i rest ih =>
    by_cases hi : i = wid
    · subst hi
      rw [List.filter_cons_of_neg (by simp)]
      simp only [stealLoop, if_pos rfl]
      exact ih
    · rw [List.filter_cons_of_pos (by simp [hi])]
      by_cases hc : c (.localQ i)
      · have hav : availQ c s (.localQ i) = false := by
          simp [availQ, hc]
        rw [List.find?_cons_of_neg _ (by simp [hav])]
        simp only [stealLoop, if_neg hi, if_pos hc]
        exact ih
      · cases hq : (localList s i).getLast? with
        | some t =>
          have hne : localList s i ≠ [] := by
            intro h; rw [h] at hq; cases hq
          cases hl : localList s i with
          | nil => exact absurd hl hne
          | cons x xs =>
            have hav : availQ c s (.localQ i) = true :=
              localList_cons_avail c s i (by simp [hc]) x xs hl
            rw [List.find?_cons_of_pos _ (by simp [hav])]
            simp only [stealLoop, if_neg hi, if_neg hc, hq]
            simp [hq]
        | none =>
          have hq' : localList s i = [] := by
            cases hl : localList s i with
            | nil => rfl
            | cons x xs =>
              rw [hl] at hq
              simp [List.getLast?_eq_none_iff] at hq
          have hav : availQ c s (.localQ i) = false :=
            localList_empty_avail c s i hq'
          rw [List.find?_cons_of_neg _ (by simp [hav])]
          simp only [stealLoop, if_neg hi, if_neg hc, hq]
          exact ih

theorem findWorkGlobal_fst (c : Contention) (s : SchedState) (wid : Nat) :
    (findWorkGlobal c s wid).1 =
      (if availQ c s .global then s.globalQ.head?
       else (((List.range s.workers.length).filter (fun i => i != wid)).find?
          (fun i => availQ c s (.localQ i))).bind
          (fun i => (localList s i).getLast?)) := by
  by_cases hc : c QueueId.global
  · have hav : availQ c s .global = false := by simp [availQ, hc]
    rw [if_neg (by simp [hav])]
    simp only [findWorkGlobal, if_pos hc]
    exact stealLoop_fst c s wid _
  · cases hg : s.globalQ with
    | nil =>
      have hav : availQ c s .global = false := by
        simp [availQ, queueOf, hg]
      rw [if_neg (by simp [hav])]
      simp only [findWorkGlobal, if_neg hc, hg]
      exact stealLoop_fst c s wid _
    | cons t rest =>
      have hav : availQ c s .global = true := by
        simp [availQ, queueOf, hc, hg]
      rw [if_pos (by simp [hav])]
      simp only [findWorkGlobal, if_neg hc, hg]
      simp

/-- C2: find_work tries candidates in the strict order of the claim.  The
task it returns is exactly the one the claim's candidate order describes:
the head of the worker's own local queue when that try_lock succeeds and
the queue is non-empty, else the head of the global queue under the same
condition, else the tail of the first available other local queue in the
fixed scan order over worker indices, else none. -/
theorem findWork_order (c : Contention) (s : SchedState) (wid : Nat) :
    (findWork c s wid).1 = findWorkSpec c s wid := by
  by_cases hc : c (QueueId.localQ wid)
  · have hav : availQ c s (.localQ wid) = false := by simp [availQ, hc]
    unfold findWorkSpec
    rw [if_neg (by simp [hav])]
    simp only [findWork, if_pos hc]
    exact findWorkGlobal_fst c s wid
  · cases hl : localList s wid with
    | nil =>
      have hav : availQ c s (.localQ wid) = false :=
        localList_empty_avail c s wid hl
      unfold findWorkSpec
      rw [if_neg (by simp [hav])]
      simp only [findWork, if_neg hc, hl]
      exact findWorkGlobal_fst c s wid
    | cons t rest =>
      have hav : availQ c s (.localQ wid) = true :=
        localList_cons_avail c s wid (by simp [hc]) t rest hl
      unfold findWorkSpec
      rw [if_pos (by simp [hav])]
      simp only [findWork, if_neg hc, hl]
      simp [hl]

/-- C3 counterexample: the claim asserts that every queue access the
scheduler makes, in schedule as well as in find_work and steal, is a
non-blocking attempt and never an unconditional blocking acquire.  On the
code this fails in schedule: with the chosen worker's local queue
contended, the fallback acquires the global queue lock with a blocking
lock call, src/scheduler.rs line 50. -/
theorem schedule_blocking_fallback :
    Access.mk QueueId.global LockMode.blocking ∈
      (schedule (fun q => q == QueueId.localQ 0)
        (SchedState.mk [] [[]] 0) 42).2 := by
  decide

theorem stealLoop_accesses_tryLock (c : Contention) (s : SchedState)
    (wid : Nat) (l : List Nat) (a : Access)
    (h : a ∈ (stealLoop c s wid l).2.2) : a.mode = LockMode.tryLock := by
  induction l with
  | nil => cases h
  | cons i rest ih =>
    by_cases hi : i = wid
    · subst hi
      simp only [stealLoop, if_pos rfl] at h
      exact ih h
    · by_cases hc : c (.localQ i)
      · simp only [stealLoop, if_neg hi, if_pos hc, List.mem_cons] at h
        rcases h with rfl | h
        · rfl
        · exact ih h
      · simp only [stealLoop, if_neg hi, if_neg hc] at h
        cases hq : (localList s i).getLast? with
        | some t =>
          rw [hq] at h
          simp only [List.mem_singleton] at h
          subst h; rfl
        | none =>
          rw [hq] at h
          simp only [List.mem_cons] at h
          rcases h with rfl | h
          · rfl
          · exact ih h

/-- C3 amended: all queue accesses in find_work and steal_work are
non-blocking try_lock attempts; schedule picks the worker as the
round-robin counter modulo the worker count and advances the counter,
makes one non-blocking try_lock attempt on that worker's local queue,
pushes there on success, and on contention pushes to the global queue
instead, but that fallback acquires the global lock with an unconditional
blocking lock call, so the submitter can block there. -/
theorem scheduler_lock_discipline (c : Contention) (s : SchedState)
    (wid t : Nat) (a : Access) :
    (a ∈ (findWork c s wid).2.2 → a.mode = LockMode.tryLock) ∧
    ((schedule c s t).1.nextWorker = s.nextWorker + 1) ∧
    (c (QueueId.localQ (s.nextWorker % s.workers.length)) = false →
      (schedule c s t).2 =
        [⟨.localQ (s.nextWorker % s.workers.length), .tryLock⟩] ∧
      (schedule c s t).1.workers =
        s.workers.set (s.nextWorker % s.workers.length)
          (localList s (s.nextWorker % s.workers.length) ++ [t])) ∧
    (c (QueueId.localQ (s.nextWorker % s.workers.length)) = true →
      (schedule c s t).2 =
        [⟨.localQ (s.nextWorker % s.workers.length), .tryLock⟩,
         ⟨.global, .blocking⟩] ∧
      (schedule c s t).1.globalQ = s.globalQ ++ [t]) := by
  refine ⟨?_, ?_, ?_, ?_⟩
  · intro h
    have hg : ∀ b : Access, b ∈ (findWorkGlobal c s wid).2.2 →
        b.mode = LockMode.tryLock := by
      intro b hb
      by_cases hc : c QueueId.global
      · simp only [findWorkGlobal, if_pos hc, List.mem_cons] at hb
        rcases hb with rfl | hb
        · rfl
        · exact stealLoop_accesses_tryLock c s wid _ b hb
      · simp only [findWorkGlobal, if_neg hc] at hb
        cases hq : s.globalQ with
        | cons x xs =>
          rw [hq] at hb
          simp only [List.mem_singleton] at hb
          subst hb; rfl
        | nil =>
          rw [hq] at hb
          simp only [List.mem_cons] at hb
          rcases hb with rfl | hb
          · rfl
          · exact stealLoop_accesses_tryLock c s wid _ b hb
    by_cases hc : c (QueueId.localQ wid)
    · simp only [findWork, if_pos hc, List.mem_cons] at h
      rcases h with rfl | h
      · rfl
      · exact hg a h
    · simp only [findWork, if_neg hc] at h
      cases hl : localList s wid with
      | cons x xs =>
        rw [hl] at h
        simp only [List.mem_singleton] at h
        subst h; rfl
      | nil =>
        rw [hl] at h
        simp only [List.mem_cons] at h
        rcases h with rfl | h
        · rfl
        · exact hg a h
  · by_cases hc : c (QueueId.localQ (s.nextWorker % s.workers.length)) <;>
      simp [schedule, hc]
  · intro hc; exact ⟨by simp [schedule, hc], by simp [schedule, hc]⟩
  · intro hc; exact ⟨by simp [schedule, hc], by simp [schedule, hc]⟩

/-- Witness for the C3 amended theorem at concrete inputs. -/
theorem scheduler_lock_discipline_w :
    (Access.mk (QueueId.localQ 0) LockMode.tryLock ∈
        (findWork (fun _ => false) (SchedState.mk [] [[7]] 0) 0).2.2 →
      (Access.mk (QueueId.localQ 0) LockMode.tryLock).mode = LockMode.tryLock) ∧
    (schedule (fun _ => false) (SchedState.mk [] [[7]] 0) 9).2 =
      [⟨QueueId.localQ 0, LockMode.tryLock⟩] := by
  constructor
  · exact fun h => (scheduler_lock_discipline (fun _ => false)
      (SchedState.mk [] [[7]] 0) 0 9
      (Access.mk (QueueId.localQ 0) LockMode.tryLock)).1 h
  · exact ((scheduler_lock_discipline (fun _ => false)
      (SchedState.mk [] [[7]] 0) 0 9
      (Access.mk (QueueId.localQ 0) LockMode.tryLock)).2.2.1 (by decide)).1

/-!
### Reactor, src/reactor.rs

The reactor keeps a mutex-guarded map from tokens to wakers.  Tokens are
naturals; wakers are values of an abstract type.  register_waker inserts
into the map, overwriting any previous entry for the token.  The event
loop, src/reactor.rs lines 113 to 136, takes each ready token reported by
the OS poll, removes its waker from the map when one is present and
invokes it, and skips the token otherwise.
-/

/-- The token to waker map of the reactor. -/
def WMap (α : Type) : Type := Nat → Option α

/-- Reactor.register_waker, src/reactor.rs lines 80 to 82: a HashMap
insert, overwriting any previous waker for the token. -/
def registerWaker (m : WMap α) (tok : Nat) (w : α) : WMap α :=
  fun x => if x = tok then some w else m x

/-- HashMap remove of one token. -/
def removeWaker (m : WMap α) (tok : Nat) : WMap α :=
  fun x => if x = tok then none else m x

/-- One pass of the event processing loop in Reactor.run_event_loop,
src/reactor.rs lines 127 to 134, over the list of ready tokens of one
poll: for each token in order, remove its waker from the map when one is
registered and invoke it, otherwise do nothing.  The second component
lists the invoked wakeups, each paired with its token, in order. -/
def processEvents (m : WMap α) : List Nat → WMap α × List (Nat × α)
  | [] => (m, [])
  | t :: ts =>
    match m t with
    | some w =>
      ((processEvents (removeWaker m t) ts).1,
        (t, w) :: (processEvents (removeWaker m t) ts).2)
    | none => processEvents m ts

/-- Number of invocations attributed to one token in a fired list. -/
def firedCount (ps : List (Nat × α)) (tok : Nat) : Nat :=
  ps.countP (fun p => p.1 == tok)

theorem processEvents_map (m : WMap α) (ts : List Nat) (tok : Nat) :
    (processEvents m ts).1 tok = if tok ∈ ts then none else m tok := by
  induction ts generalizing m with
  | nil => simp [processEvents]
  | cons t ts ih =>
    cases hm : m t with
    | some w =>
      simp only [processEvents, hm]
      rw [ih]
      by_cases he : tok = t
      · subst he
        by_cases hts : tok ∈ ts <;> simp [hts, removeWaker]
      · by_cases hts : tok ∈ ts <;>
          simp [hts, removeWaker, he, List.mem_cons]
    | none =>
      simp only [processEvents, hm]
      rw [ih]
      by_cases he : tok = t
      · subst he
        by_cases hts : tok ∈ ts <;> simp [hts, hm]
      · by_cases hts : tok ∈ ts <;> simp [hts, he, List.mem_cons]

theorem processEvents_count (m : WMap α) (ts : List Nat) (tok : Nat) :
    firedCount (processEvents m ts).2 tok =
      if (m tok).isSome ∧ tok ∈ ts then 1 else 0 := by
  induction ts generalizing m with
  | nil => simp [processEvents, firedCount]
  | cons t ts ih =>
    cases hm : m t with
    | some w =>
      simp only [processEvents, hm]
      by_cases he : tok = t
      · subst he
        have hr : (removeWaker m tok tok).isSome = false := by
          simp [removeWaker]
        rw [firedCount, List.countP_cons]
        have := ih (removeWaker m tok)
        rw [firedCount] at this
        rw [this]
        simp [hr, hm, List.mem_cons]
      · rw [firedCount, List.countP_cons]
        have := ih (removeWaker m t)
        rw [firedCount] at this
        rw [this]
        have hr : (removeWaker m t) tok = m tok := by
          simp [removeWaker, he]
        simp [hr, he, List.mem_cons, Ne.symm he]
    | none =>
      simp only [processEvents, hm]
      rw [ih]
      by_cases he : tok = t
      · subst he
        simp [hm, List.mem_cons]
      · simp [he, List.mem_cons]

/-- C6: the reactor keeps at most one pending wakeup per token.
Registering a waker for a token overwrites any previous one and touches no
other token; the event loop, for every ready token with a registered
waker, removes and invokes that waker exactly once even when the token is
reported ready again later in the batch, and after the pass the token has
no registered waker; a ready token with no registered waker is skipped
with no effect on the map and nothing invoked. -/
theorem reactor_waker_discipline (m : WMap α) (ts : List Nat)
    (tok x : Nat) (w w' : α) (hx : x ≠ tok) :
    (registerWaker (registerWaker m tok w') tok w) tok = some w ∧
    (registerWaker (registerWaker m tok w') tok w) x = m x ∧
    (firedCount (processEvents m ts).2 tok =
      if (m tok).isSome ∧ tok ∈ ts then 1 else 0) ∧
    ((processEvents m ts).1 tok = if tok ∈ ts then none else m tok) ∧
    (m tok = none → processEvents m (tok :: ts) = processEvents m ts) := by
  refine ⟨?_, ?_, processEvents_count m ts tok, processEvents_map m ts tok, ?_⟩
  · simp [registerWaker]
  · simp [registerWaker, hx]
  · intro hm
    simp [processEvents, hm]

/-- Witness for C6 at concrete inputs. -/
theorem reactor_waker_discipline_w :
    (registerWaker (registerWaker (fun _ => (none : Option Nat)) 2 10) 2 20) 2 =
      some 20 ∧
    firedCount
      (processEvents (registerWaker (fun _ => (none : Option Nat)) 2 20)
        [2, 2]).2 2 = 1 := by
  constructor
  · exact (reactor_waker_discipline (fun _ => (none : Option Nat)) [2, 2]
      2 3 20 10 (by decide)).1
  · rw [(reactor_waker_discipline
      (registerWaker (fun _ => (none : Option Nat)) 2 20) [2, 2]
      2 3 20 10 (by decide)).2.2.1]
    simp [registerWaker]

/-!
### The wait_for_io future, src/reactor.rs lines 85 to 110

IoFuture carries the token and a registered flag.  Its poll registers the
current waker with the reactor on the first call, and returns Pending on
that call and on every later call.  Nothing in the poll body consults the
reactor or produces Ready, so the poll result does not depend on whether
the registered waker has since been fired.
-/

/-- State of one IoFuture: the registered flag, initially false. -/
structure IoState where
  registered : Bool
  deriving DecidableEq, Repr

/-- IoFuture.poll, src/reactor.rs lines 94 to 103.  The middle component
records whether this call registered the waker; the last component is the
poll result, where none stands for Pending and some for Ready. -/
def pollIo (s : IoState) : IoState × Bool × Option Unit :=
  if s.registered then (s, false, none)
  else (⟨true⟩, true, none)

/-- Iterate poll n times, collecting the registration count and the poll
results in order. -/
def pollIoN : Nat → IoState → IoState × Nat × List (Option Unit)
  | 0, s => (s, 0, [])
  | n + 1, s =>
    ((pollIoN n (pollIo s).1).1,
      (if (pollIo s).2.1 then 1 else 0) + (pollIoN n (pollIo s).1).2.1,
      (pollIo s).2.2 :: (pollIoN n (pollIo s).1).2.2)

theorem pollIoN_regs_true (n : Nat) :
    (pollIoN n (IoState.mk true)).2.1 = 0 := by
  induction n with
  | zero => rfl
  | succ n ih => simp [pollIoN, pollIo, ih]

/-- C7: the future returned by Reactor.wait_for_io never resolves.  From
any state every poll returns Pending, so every sequence of n polls yields
n Pending results and no Ready; the first poll from a fresh future
registers the waker and flips the flag, later polls register nothing, and
over n polls from a fresh future exactly min n 1 registrations happen. -/
theorem wait_for_io_never_ready (n : Nat) (s : IoState) :
    (pollIoN n s).2.2 = List.replicate n none ∧
    (pollIo (IoState.mk false)).2.1 = true ∧
    (pollIo (IoState.mk false)).1 = IoState.mk true ∧
    (pollIo (IoState.mk true)).2.1 = false ∧
    (pollIoN n (IoState.mk false)).2.1 = min n 1 := by
  refine ⟨?_, rfl, rfl, rfl, ?_⟩
  · induction n generalizing s with
    | zero => rfl
    | succ n ih =>
      by_cases hs : s.registered <;>
        simp [pollIoN, pollIo, hs, ih, List.replicate]
  · cases n with
    | zero => rfl
    | succ n => simp [pollIoN, pollIo, pollIoN_regs_true n]

/-!
### Interval, src/time.rs lines 242 to 274

An Interval stores its period and the next tick boundary.  Interval.new
sets the first boundary to now plus the period.  Interval.tick returns the
stored boundary, suspends until it with sleep_until, and advances the
stored boundary by the period; the current time is never consulted for
the boundary computation, so arriving late to a tick does not move later
boundaries.
-/

/-- Interval state, src/time.rs lines 243 to 246. -/
structure Interval where
  period : Nat
  nextTick : Nat
  deriving DecidableEq, Repr

/-- Interval.new, src/time.rs lines 250 to 255, at creation time now. -/
def Interval.new (period now : Nat) : Interval := ⟨period, now + period⟩

/-- Interval.tick, src/time.rs lines 258 to 263: the tick resolves at the
stored boundary, and the next boundary is the previous boundary plus the
period. -/
def Interval.tick (s : Interval) : Nat × Interval :=
  (s.nextTick, ⟨s.period, s.nextTick + s.period⟩)

/-- Consume one tick per entry of the lateness list; each entry models how
late the consumer awaited that tick, and the code ignores it. -/
def Interval.runTicks : Interval → List Nat → List Nat
  | _, [] => []
  | s, _ :: rest => (s.tick).1 :: Interval.runTicks (s.tick).2 rest

theorem Interval.runTicks_formula (lats : List Nat) (s : Interval) :
    Interval.runTicks s lats =
      (List.range lats.length).map (fun i => s.nextTick + i * s.period) := by
  induction lats generalizing s with
  | nil => rfl
  | cons d rest ih =>
    simp only [Interval.runTicks, Interval.tick, List.length_cons,
      List.range_succ_eq_map, List.map_cons, List.map_map]
    congr 1
    · simp
    · rw [ih]
      apply List.map_congr_left
      intro i _
      simp [Function.comp, Nat.succ_mul]
      ring

/-- C9: an Interval with period p is fixed-phase and non-drifting.  The
boundary after a tick is the previous boundary plus the period, never the
current time plus the period; consequently, for every lateness pattern,
the k-th tick boundary of an interval created at time t0 is exactly
t0 plus k times p, and the boundaries do not depend on the lateness
pattern at all. -/
theorem interval_fixed_phase (p t0 : Nat) (s : Interval)
    (lats lats' : List Nat) (h : lats.length = lats'.length) :
    (((s.tick).2).nextTick = (s.tick).1 + s.period) ∧
    (Interval.runTicks (Interval.new p t0) lats =
      (List.range lats.length).map (fun i => t0 + (i + 1) * p)) ∧
    (Interval.runTicks (Interval.new p t0) lats =
      Interval.runTicks (Interval.new p t0) lats') := by
  refine ⟨rfl, ?_, ?_⟩
  · rw [Interval.runTicks_formula]
    apply List.map_congr_left
    intro i _
    simp [Interval.new, Nat.succ_mul]
    ring
  · rw [Interval.runTicks_formula, Interval.runTicks_formula, h]

/-- Witness for C9 at concrete inputs. -/
theorem interval_fixed_phase_w :
    Interval.runTicks (Interval.new 10 100) [0, 7, 3] =
      (List.range 3).map (fun i => 100 + (i + 1) * 10) ∧
    Interval.runTicks (Interval.new 10 100) [0, 7, 3] =
      Interval.runTicks (Interval.new 10 100) [5, 0, 9] := by
  exact ⟨(interval_fixed_phase 10 100 (Interval.new 10 100) [0, 7, 3]
      [5, 0, 9] (by decide)).2.1,
    (interval_fixed_phase 10 100 (Interval.new 10 100) [0, 7, 3]
      [5, 0, 9] (by decide)).2.2⟩

/-!
### Timeout, src/time.rs lines 183 to 228

TimeoutFuture races the inner future against a deadline.  The timer wheel
entries registered through add_timer are modelled as a list of id and
deadline pairs together with the next id counter; the wheel only ever
receives entries, the timeout future never removes one.
-/

/-- Timer wheel registrations visible to the timeout future: the entries
added by add_timer, src/time.rs lines 53 to 63, as id and deadline pairs,
plus the monotone id counter. -/
structure Wheel where
  entries : List (Nat × Nat)
  nextId : Nat
  deriving DecidableEq, Repr

/-- TimerWheel.add_timer: allocate the next id and insert the entry. -/
def Wheel.addTimer (w : Wheel) (deadline : Nat) : Nat × Wheel :=
  (w.nextId, ⟨w.entries ++ [(w.nextId, deadline)], w.nextId + 1⟩)

/-- State of a TimeoutFuture: whether a timer has been registered. -/
structure TOState where
  timerId : Option Nat
  deriving DecidableEq, Repr

/-- One poll of TimeoutFuture, src/time.rs lines 203 to 228.  The inner
argument is what polling the inner future returns at this poll, with none
for Pending; now is the current instant.  Order as in the source: poll the
inner future first and resolve Ok on Ready, then check the deadline and
resolve with the timeout error, else register a timer once and stay
pending, where none in the result means Pending. -/
def pollTimeout (deadline : Nat) (st : TOState) (w : Wheel)
    (inner : Option τ) (now : Nat) :
    TOState × Wheel × Option (Except Unit τ) :=
  match inner with
  | some v => (st, w, some (Except.ok v))
  | none =>
    if deadline ≤ now then (st, w, some (Except.error ()))
    else
      match st.timerId with
      | some _ => (st, w, none)
      | none =>
        (⟨some (w.addTimer deadline).1⟩, (w.addTimer deadline).2, none)

/-- C8: a poll of timeout resolves to Ok with the inner output exactly
when the inner future is ready at that poll, with the inner outcome
winning even when the deadline has also elapsed; it resolves to the
timeout error exactly when the inner is pending and the deadline has
elapsed; it stays pending exactly when the inner is pending and the
deadline has not elapsed, registering a wheel entry only on the first such
poll; and the wheel is never shrunk by the timeout future, so a losing
timer registration stays in the wheel and is only ignored. -/
theorem timeout_race (deadline : Nat) (st : TOState) (w : Wheel)
    (inner : Option τ) (now : Nat) (v : τ) (e : Nat × Nat)
    (he : e ∈ w.entries) :
    ((pollTimeout deadline st w inner now).2.2 = some (Except.ok v) ↔
      inner = some v) ∧
    ((pollTimeout deadline st w inner now).2.2 = some (Except.error ()) ↔
      inner = none ∧ deadline ≤ now) ∧
    ((pollTimeout deadline st w inner now).2.2 = none ↔
      inner = none ∧ now < deadline) ∧
    ((pollTimeout deadline st w inner now).2.1.entries = w.entries ∨
      (pollTimeout deadline st w inner now).2.1.entries =
        w.entries ++ [(w.nextId, deadline)]) ∧
    (e ∈ (pollTimeout deadline st w inner now).2.1.entries) ∧
    (inner = none → now < deadline → st.timerId = none →
      (pollTimeout deadline st w inner now).2.1.entries =
        w.entries ++ [(w.nextId, deadline)] ∧
      (pollTimeout deadline st w inner now).1.timerId = some w.nextId) := by
  cases inner with
  | some x =>
    simp [pollTimeout, he]
  | none =>
    by_cases hd : deadline ≤ now
    · simp [pollTimeout, hd, he, Nat.not_lt.mpr hd]
    · cases ht : st.timerId with
      | some i =>
        simp [pollTimeout, hd, ht, he, Nat.lt_of_not_le hd]
      | none =>
        simp [pollTimeout, hd, ht, he, Wheel.addTimer, Nat.lt_of_not_le hd]

/-- Witness for C8 at concrete inputs. -/
theorem timeout_race_w :
    ((pollTimeout 10 (TOState.mk none) (Wheel.mk [(1, 4)] 2)
        (some 99) 12).2.2 = some (Except.ok 99) ↔
      (some 99 : Option Nat) = some 99) ∧
    ((1, 4) ∈ (pollTimeout 10 (TOState.mk none) (Wheel.mk [(1, 4)] 2)
      (some (99 : Nat)) 12).2.1.entries) := by
  exact ⟨(timeout_race 10 (TOState.mk none) (Wheel.mk [(1, 4)] 2)
      (some 99) 12 99 (1, 4) (by decide)).1,
    (timeout_race 10 (TOState.mk none) (Wheel.mk [(1, 4)] 2)
      (some 99) 12 99 (1, 4) (by decide)).2.2.2.2.1⟩

/-!
### Timer ordering and the wheel drain, src/time.rs

Timers are ordered by deadline with the id as tie-break, src/time.rs lines
308 to 313.  The wheel keeps them in a min-heap (a BinaryHeap of Reverse
values); the driver loop, src/time.rs lines 65 to 94, repeatedly peeks the
minimum, pops it while its deadline has elapsed, collecting the expired
timers under the lock, and only after releasing the lock invokes each
collected wakeup once.  The heap is modelled as the list of its timers;
popping the minimum by the Timer ordering models the heap pop.
-/

/-- One pending timer, src/time.rs lines 36 to 41, with the waker
modelled by an optional natural as stored in the source. -/
structure Timer where
  id : Nat
  deadline : Nat
  waker : Option Nat
  deriving DecidableEq, Repr

/-- The Ord implementation for Timer, src/time.rs lines 308 to 313:
compare deadlines first, then ids. -/
def Timer.cmp (a b : Timer) : Ordering :=
  (compare a.deadline b.deadline).then (compare a.id b.id)

/-- Non-strict order induced by Timer.cmp: a sorts no later than b. -/
def Timer.le (a b : Timer) : Bool :=
  match Timer.cmp a b with
  | .gt => false
  | _ => true

theorem Timer.le_iff (a b : Timer) :
    Timer.le a b = true ↔
      (a.deadline < b.deadline ∨
        (a.deadline = b.deadline ∧ a.id ≤ b.id)) := by
  unfold Timer.le Timer.cmp
  rcases Nat.lt_trichotomy a.deadline b.deadline with h | h | h
  · rw [(Nat.compare_eq_lt).mpr h]
    simp [Ordering.then]
    omega
  · rw [(Nat.compare_eq_eq).mpr h]
    simp only [Ordering.then]
    rcases Nat.lt_trichotomy a.id b.id with h2 | h2 | h2
    · rw [(Nat.compare_eq_lt).mpr h2]; simp; omega
    · rw [(Nat.compare_eq_eq).mpr h2]; simp; omega
    · rw [(Nat.compare_eq_gt).mpr h2]; simp; omega
  · rw [(Nat.compare_eq_gt).mpr h]
    simp [Ordering.then]
    omega

theorem Timer.le_total (a b : Timer) :
    Timer.le a b = true ∨ Timer.le b a = true := by
  rw [Timer.le_iff, Timer.le_iff]
  omega

theorem Timer.le_trans (a b c : Timer) (h1 : Timer.le a b = true)
    (h2 : Timer.le b c = true) : Timer.le a c = true := by
  rw [Timer.le_iff] at h1 h2 ⊢
  omega

theorem Timer.le_refl (a : Timer) : Timer.le a a = true := by
  rw [Timer.le_iff]
  omega

theorem Timer.cmp_eq_iff (a b : Timer) :
    Timer.cmp a b = Ordering.eq ↔
      (a.deadline = b.deadline ∧ a.id = b.id) := by
  unfold Timer.cmp
  rcases Nat.lt_trichotomy a.deadline b.deadline with h | h | h
  · rw [(Nat.compare_eq_lt).mpr h]; simp [Ordering.then]; omega
  · rw [(Nat.compare_eq_eq).mpr h]
    simp only [Ordering.then]
    rcases Nat.lt_trichotomy a.id b.id with h2 | h2 | h2
    · rw [(Nat.compare_eq_lt).mpr h2]; simp; omega
    · rw [(Nat.compare_eq_eq).mpr h2]; simp; omega
    · rw [(Nat.compare_eq_gt).mpr h2]; simp; omega
  · rw [(Nat.compare_eq_gt).mpr h]; simp [Ordering.then]; omega

/-- Pop the minimum timer under the Timer ordering, modelling the pop of
the min-heap of src/time.rs line 31. -/
def popMin : List Timer → Option (Timer × List Timer)
  | [] => none
  | t :: ts =>
    match popMin ts with
    | none => some (t, [])
    | some (m, rest) =>
      if Timer.le t m then some (t, ts) else some (m, t :: rest)

theorem popMin_none (l : List Timer) (h : popMin l = none) : l = [] := by
  cases l with
  | nil => rfl
  | cons t ts =>
    simp only [popMin] at h
    cases hp : popMin ts with
    | none => rw [hp] at h; cases h
    | some p =>
      rw [hp] at h
      by_cases hle : Timer.le t p.1 <;> simp [hle] at h

theorem popMin_spec (l : List Timer) (m : Timer) (rest : List Timer)
    (h : popMin l = some (m, rest)) :
    l.Perm (m :: rest) ∧ ∀ x ∈ l, Timer.le m x = true := by
  induction l generalizing m rest with
  | nil => cases h
  | cons t ts ih =>
    cases hp : popMin ts with
    | none =>
      have hts : ts = [] := popMin_none ts hp
      subst hts
      simp only [popMin, Option.some.injEq, Prod.mk.injEq] at h
      obtain ⟨rfl, rfl⟩ := h
      refine ⟨List.Perm.refl _, ?_⟩
      intro x hx
      rcases List.mem_singleton.mp hx with rfl
      exact Timer.le_refl x
    | some p =>
      obtain ⟨m', rest'⟩ := p
      simp only [popMin, hp] at h
      rcases ih m' rest' hp with ⟨hperm, hmin⟩
      by_cases hle : Timer.le t m' = true
      · rw [if_pos hle] at h
        simp only [Option.some.injEq, Prod.mk.injEq] at h
        obtain ⟨rfl, rfl⟩ := h
        refine ⟨List.Perm.refl _, ?_⟩
        intro x hx
        rcases List.mem_cons.mp hx with rfl | hx
        · exact Timer.le_refl x
        · have hx' : x ∈ m' :: rest' := hperm.mem_iff.mp hx
          rcases List.mem_cons.mp hx' with rfl | hx'
          · exact hle
          · exact Timer.le_trans t m' x hle (hmin x hx)
      · rw [if_neg hle] at h
        simp only [Option.some.injEq, Prod.mk.injEq] at h
        obtain ⟨rfl, rfl⟩ := h
        refine ⟨?_, ?_⟩
        · exact (List.Perm.cons t hperm).trans (List.Perm.swap _ _ _)
        · intro x hx
          rcases List.mem_cons.mp hx with rfl | hx
          · rcases Timer.le_total x m' with h' | h'
            · exact absurd h' hle
            · exact h'
          · exact hmin x hx

/-- Drain loop of TimerWheel.run, src/time.rs lines 71 to 82, with
explicit fuel: while the heap minimum has an elapsed deadline, pop it and
collect it; stop at the first minimum whose deadline lies in the future.
Returns the collected expired timers in pop order and the remaining
heap contents. -/
def drainExpired (now : Nat) : Nat → List Timer → List Timer × List Timer
  | 0, l => ([], l)
  | fuel + 1, l =>
    match popMin l with
    | none => ([], l)
    | some (m, rest) =>
      if m.deadline ≤ now then
        ((m :: (drainExpired now fuel rest).1), (drainExpired now fuel rest).2)
      else ([], l)

/-- The drain of one driver iteration, with fuel covering the heap. -/
def wheelDrain (now : Nat) (l : List Timer) : List Timer × List Timer :=
  drainExpired now l.length l

/-- One full driver iteration, src/time.rs lines 65 to 94: collect the
expired timers under the lock, then, after the lock is released, invoke
the collected wakeups in order.  The first component is the remaining
heap, the second the invoked wakeups. -/
def wheelIteration (now : Nat) (l : List Timer) : List Timer × List Nat :=
  ((wheelDrain now l).2, (wheelDrain now l).1.filterMap Timer.waker)

theorem drainExpired_spec (now : Nat) (fuel : Nat) :
    ∀ l : List Timer, l.length ≤ fuel →
    ((drainExpired now fuel l).1).Perm
        (l.filter (fun t => decide (t.deadline ≤ now))) ∧
    ((drainExpired now fuel l).2).Perm
        (l.filter (fun t => decide (now < t.deadline))) ∧
    List.Pairwise (fun a b => Timer.le a b = true)
      (drainExpired now fuel l).1 := by
  induction fuel with
  | zero =>
    intro l hl
    have : l = [] := List.length_eq_zero.mp (Nat.le_zero.mp hl)
    subst this
    exact ⟨List.Perm.refl _, List.Perm.refl _, List.Pairwise.nil⟩
  | succ fuel ih =>
    intro l hl
    cases hp : popMin l with
    | none =>
      have : l = [] := popMin_none l hp
      subst this
      simp only [drainExpired, hp]
      exact ⟨List.Perm.refl _, List.Perm.refl _, List.Pairwise.nil⟩
    | some p =>
      obtain ⟨m, rest⟩ := p
      rcases popMin_spec l m rest hp with ⟨hperm, hmin⟩
      have hlen : rest.length ≤ fuel := by
        have := hperm.length_eq
        simp only [List.length_cons] at this
        omega
      by_cases hd : m.deadline ≤ now
      · rcases ih rest hlen with ⟨he, hr, hs⟩
        simp only [drainExpired, hp, if_pos hd]
        refine ⟨?_, ?_, ?_⟩
        · have hfl : (l.filter (fun t => decide (t.deadline ≤ now))).Perm
              ((m :: rest).filter (fun t => decide (t.deadline ≤ now))) :=
            hperm.filter _
          rw [List.filter_cons, if_pos (by simp [hd])] at hfl
          exact (List.Perm.cons m he).trans hfl.symm
        · have hfl : (l.filter (fun t => decide (now < t.deadline))).Perm
              ((m :: rest).filter (fun t => decide (now < t.deadline))) :=
            hperm.filter _
          rw [List.filter_cons, if_neg (by simp; omega)] at hfl
          exact hr.trans hfl.symm
        · refine List.Pairwise.cons ?_ hs
          intro x hx
          have hx1 : x ∈ rest.filter (fun t => decide (t.deadline ≤ now)) :=
            he.mem_iff.mp hx
          have hx2 : x ∈ rest := List.mem_of_mem_filter hx1
          have hx3 : x ∈ l := hperm.mem_iff.mpr (List.mem_cons_of_mem m hx2)
          exact hmin x hx3
      · simp only [drainExpired, hp, if_neg hd]
        have hall : ∀ x ∈ l, now < x.deadline := by
          intro x hx
          have := (Timer.le_iff m x).mp (hmin x hx)
          omega
        refine ⟨?_, ?_, List.Pairwise.nil⟩
        · rw [List.filter_eq_nil_iff.mpr
            (by intro x hx; simp only [decide_eq_true_eq]
                have := hall x hx; omega)]
        · rw [List.filter_eq_self.mpr
            (by intro x hx; simp only [decide_eq_true_eq]; exact hall x hx)]

/-- C10: timers are totally ordered by deadline with the monotone id as
tie-break for equal deadlines; one driver iteration drains from the heap
exactly the entries whose deadline is at most now, in nondecreasing
deadline and id order, leaves the entries with a future deadline in the
heap untouched, invokes each drained wakeup exactly once with the
invocations happening after the drain completes, outside the lock; an
entry with unique id and elapsed deadline appears exactly once in the
drained list. -/
theorem timerwheel_order_and_drain (a b : Timer) (now : Nat)
    (l : List Timer) (t : Timer) (hids : (l.map Timer.id).Nodup)
    (hmem : t ∈ l) (hdl : t.deadline ≤ now) :
    (Timer.cmp a b = Ordering.eq ↔
      (a.deadline = b.deadline ∧ a.id = b.id)) ∧
    (Timer.le a b = true ↔
      (a.deadline < b.deadline ∨ (a.deadline = b.deadline ∧ a.id ≤ b.id))) ∧
    (Timer.le a b = true ∨ Timer.le b a = true) ∧
    ((wheelDrain now l).1).Perm
      (l.filter (fun x => decide (x.deadline ≤ now))) ∧
    ((wheelDrain now l).2).Perm
      (l.filter (fun x => decide (now < x.deadline))) ∧
    List.Pairwise (fun x y => Timer.le x y = true) (wheelDrain now l).1 ∧
    ((wheelDrain now l).1.count t = 1) ∧
    (wheelIteration now l).2 = ((wheelDrain now l).1).filterMap Timer.waker := by
  unfold wheelDrain
  rcases drainExpired_spec now l.length l (Nat.le_refl _) with ⟨he, hr, hs⟩
  refine ⟨Timer.cmp_eq_iff a b, Timer.le_iff a b, Timer.le_total a b,
    he, hr, hs, ?_, rfl⟩
  have hnd : l.Nodup := hids.of_map
  have hcf : (l.filter (fun x => decide (x.deadline ≤ now))).count t =
      l.count t := List.count_filter (by simp [hdl])
  rw [he.count_eq, hcf, List.count_eq_one_of_mem hnd hmem]

/-- Witness for C10 at concrete inputs: a two-timer heap with equal
deadlines drained at an instant past both. -/
theorem timerwheel_order_and_drain_w :
    ((wheelDrain 9 [Timer.mk 2 5 (some 20), Timer.mk 1 5 (some 10)]).1).Perm
      ([Timer.mk 2 5 (some 20), Timer.mk 1 5 (some 10)].filter
        (fun x => decide (x.deadline ≤ 9))) ∧
    ((wheelDrain 9 [Timer.mk 2 5 (some 20), Timer.mk 1 5 (some 10)]).1.count
      (Timer.mk 1 5 (some 10)) = 1) := by
  exact ⟨(timerwheel_order_and_drain (Timer.mk 1 5 (some 10))
      (Timer.mk 2 5 (some 20)) 9
      [Timer.mk 2 5 (some 20), Timer.mk 1 5 (some 10)]
      (Timer.mk 1 5 (some 10)) (by decide) (by decide) (by decide)).2.2.2.1,
    (timerwheel_order_and_drain (Timer.mk 1 5 (some 10))
      (Timer.mk 2 5 (some 20)) 9
      [Timer.mk 2 5 (some 20), Timer.mk 1 5 (some 10)]
      (Timer.mk 1 5 (some 10)) (by decide) (by decide) (by decide)).2.2.2.2.2.2.1⟩

end Cycle
